import Mathlib

/-!
Verification of the audiolab DSP core (src/main.c) against its specification.

The development shallowly embeds the analysis / synthesis code:
- the recursive radix-2 FFT (function fft, src/main.c lines 382-393),
- the per-cycle analysis pass of the main loop (lines 173-235),
- reset_peak_hold (lines 505-509),
- the tone-generator sweep state machine of playback_callback (lines 401-432),
- freq_to_note (lines 451-461),
- the control-surface key handlers (lines 144-161).

C doubles are modelled by real numbers (exact arithmetic); the sweep state,
which uses no transcendental functions, is modelled over the rationals so that
it is executable.  C casts from double to an integer type truncate toward
zero and are modelled by ctrunc; the C library round (half away from zero)
is modelled by cround.
-/

open Finset

noncomputable section

/-- Truncation toward zero of a real number, the semantics of a C cast from
double to an integer type (and of the double-to-int assignment conversions
in main.c). -/
def ctrunc (x : ℝ) : ℤ := if 0 ≤ x then ⌊x⌋ else ⌈x⌉

/-- C library round: round half away from zero. -/
def cround (x : ℝ) : ℤ := if 0 ≤ x then ⌊x + 1 / 2⌋ else ⌈x - 1 / 2⌉

/-- C library fmod: x - y * trunc (x / y).  For nonnegative x and positive y
this agrees with x - y * floor (x / y). -/
def cfmod (x y : ℝ) : ℝ := x - y * (ctrunc (x / y) : ℝ)

/-- Unit complex exponential with real angle r, i.e. exp (r * I).
The C code forms cos(angle) and sin(angle) and combines them as the real and
imaginary parts of a complex product; that product is exactly
multiplication by exp (angle * I). -/
def eC (r : ℝ) : ℂ := Complex.exp (r * Complex.I)

/-- Shallow embedding of fft (src/main.c lines 382-393) for a transform size
2 ^ m.  The C function is called only with the power-of-two size 4096 and
carries the spec precondition that n is a power of two, so the recursion is
indexed by the exponent m.  Arrays are embedded as functions from indices;
indices at or beyond the transform size are not meaningful.
The recombination mirrors the C loop: for k below n / 2 the output at k is
even[k] + t and the output at k + n / 2 is even[k] - t, with the twiddle
t = exp (-2 pi k / n * I) * odd[k]. -/
def fftRec : ℕ → (ℕ → ℂ) → ℕ → ℂ
  | 0, x => x
  | m + 1, x => fun k =>
      let e := fftRec m (fun j => x (2 * j))
      let o := fftRec m (fun j => x (2 * j + 1))
      if k < 2 ^ m then
        e k + eC (-(2 * Real.pi * k) / (2 ^ (m + 1))) * o k
      else
        e (k - 2 ^ m) - eC (-(2 * Real.pi * ((k - 2 ^ m : ℕ) : ℝ)) / (2 ^ (m + 1))) * o (k - 2 ^ m)

/-- The discrete Fourier transform that the specification ascribes to fft:
X[k] = sum over j below n of x[j] * exp (-2 pi i j k / n). -/
def dft (n : ℕ) (x : ℕ → ℂ) (k : ℕ) : ℂ :=
  ∑ j ∈ Finset.range n, x j * eC (-(2 * Real.pi * (j * k)) / n)

/-- The unit impulse input [1, 0, 0, ...]. -/
def impulse (j : ℕ) : ℂ := if j = 0 then 1 else 0

end

-- Tone generator sweep state machine (playback_callback, src/main.c lines 401-432).

/-- The sweep-relevant part of the ToneGenerator state: sweep_time, sweep_up
and current_freq (src/main.c lines 44-52).  The C fields are double / int;
they hold no transcendental values, so they are modelled over the rationals
to keep the step function executable. -/
structure SweepState where
  sweep_time : ℚ
  sweep_up : Bool
  current_freq : ℚ
  deriving DecidableEq

/-- One unpaused synthesis sample of the sweep state machine
(src/main.c lines 407-418): the frequency for this sample is computed from
the current sweep_time, then sweep_time advances by 1/44100, and on reaching
the 20 second duration it wraps to 0 and the direction flips. -/
def sweepStep (g : SweepState) : SweepState :=
  let sweep_progress := g.sweep_time / 20
  let freq := if g.sweep_up then 20 + (5000 - 20) * sweep_progress
    else 5000 - (5000 - 20) * sweep_progress
  let t := g.sweep_time + 1 / 44100
  if 20 ≤ t then { sweep_time := 0, sweep_up := !g.sweep_up, current_freq := freq }
  else { sweep_time := t, sweep_up := g.sweep_up, current_freq := freq }

/-- Initial generator sweep state (src/main.c line 89): ascending at 20 Hz
with elapsed time 0. -/
def initSweep : SweepState := { sweep_time := 0, sweep_up := true, current_freq := 20 }

/-- The frequency computed by a sweep step whose pre-step sweep_time is
n / 44100 (direction u): closed form used to settle claim C4. -/
def sweepFreqAt (u : Bool) (n : ℕ) : ℚ :=
  if u then 20 + 4980 * ((n : ℚ) / 882000) else 5000 - 4980 * ((n : ℚ) / 882000)

-- Control surface (key handlers, src/main.c lines 151-156).

/-- The control-surface scalars adjusted by the key handlers. -/
structure Controls where
  squelch_threshold : ℝ
  visual_gain : ℝ
  scope_gain : ℝ

/-- The key events that update the three clamped control scalars. -/
inductive ControlKey where
  | keyW
  | keyS
  | keyUp
  | keyDown
  | keyRight
  | keyLeft

/-- Shallow embedding of the key handlers for the clamped scalars
(src/main.c lines 151-156): each decrement clamps immediately, increments
are unclamped, and no update is rejected. -/
noncomputable def applyKey (c : Controls) : ControlKey → Controls
  | ControlKey.keyW => { c with scope_gain := c.scope_gain + 0.2 }
  | ControlKey.keyS =>
      let g := c.scope_gain - 0.2
      { c with scope_gain := if g < 0.1 then 0.1 else g }
  | ControlKey.keyUp => { c with squelch_threshold := c.squelch_threshold + 50 }
  | ControlKey.keyDown =>
      let t := c.squelch_threshold - 50
      { c with squelch_threshold := if t < 0 then 0 else t }
  | ControlKey.keyRight => { c with visual_gain := c.visual_gain + 0.05 }
  | ControlKey.keyLeft =>
      let g := c.visual_gain - 0.05
      { c with visual_gain := if g < 0 then 0 else g }

/-- Initial control values (src/main.c lines 85-87). -/
noncomputable def initControls : Controls :=
  { squelch_threshold := 500, visual_gain := 1, scope_gain := 1 }

/-- The invariant claimed for the control scalars. -/
def controlsInv (c : Controls) : Prop :=
  0 ≤ c.squelch_threshold ∧ 0 ≤ c.visual_gain ∧ 0.1 ≤ c.scope_gain

-- Waveform synthesis (playback_callback, src/main.c lines 420-427).

/-- Waveform selector (src/main.c lines 31-33). -/
inductive WaveformType where
  | WAVE_SINE
  | WAVE_SQUARE
  | WAVE_SAWTOOTH
  | WAVE_TRIANGLE

noncomputable section

/-- Pre-scaling synthesized waveform value from the phase accumulator
(src/main.c lines 420-426). -/
def waveValue (w : WaveformType) (phase : ℝ) : ℝ :=
  match w with
  | WaveformType.WAVE_SINE => Real.sin phase
  | WaveformType.WAVE_SQUARE => if 0 ≤ Real.sin phase then 1 else -1
  | WaveformType.WAVE_SAWTOOTH => cfmod phase (2 * Real.pi) / Real.pi - 1
  | WaveformType.WAVE_TRIANGLE =>
      2 * |cfmod (phase / (2 * Real.pi)) 1 * 2 - 1| - 1

/-- The signed 16-bit sample written to the output block
(src/main.c line 427): the C cast (Sint16)(12000 * sample) truncates
toward zero. -/
def outSample (w : WaveformType) (phase : ℝ) : ℤ := ctrunc (12000 * waveValue w phase)

end

-- Note mapper (freq_to_note, src/main.c lines 451-461).

/-- The chromatic note names of freq_to_note (src/main.c line 456). -/
def noteNames : List String :=
  ["C", "C#", "D", "D#", "E", "F"] ++ ["F#", "G", "G#", "A", "A#", "B"]

noncomputable section

/-- note_num of freq_to_note (src/main.c line 457): (int)round of
12 * log2(frequency / 440) + 69, with the C half-away-from-zero round. -/
def noteNum (frequency : ℝ) : ℤ := cround (12 * Real.logb 2 (frequency / 440) + 69)

/-- Shallow embedding of freq_to_note (src/main.c lines 451-461).  The C
function fills a character buffer; the produced string is returned instead.
C integer division and remainder truncate toward zero (Int.tdiv, Int.tmod);
the array access note_names[note_index] is defined only for an index inside
the bounds, so an out-of-range index (undefined behaviour in C) is none. -/
def freq_to_note (frequency : ℝ) : Option String :=
  if frequency ≤ 0 then some "---"
  else
    let note_num : ℤ := noteNum frequency
    let octave : ℤ := note_num.tdiv 12 - 1
    let note_index : ℤ := note_num.tmod 12
    if 0 ≤ note_index ∧ note_index.toNat < noteNames.length then
      some (noteNames.getD note_index.toNat "" ++ toString octave)
    else none

end

-- Analysis cycle (main loop, src/main.c lines 173-235).

/-- Bounded linear scan: first index i with p i, starting at start, for at
most fuel successive indices.  This is the generic shape of the C trigger
scan loop. -/
def findFirst (p : ℕ → Bool) : ℕ → ℕ → Option ℕ
  | 0, _ => none
  | fuel + 1, start => if p start then some start else findFirst p fuel (start + 1)

/-- The trigger scan (src/main.c lines 182-186): the first index i with
1 <= i < 4095 whose predecessor sample is negative and whose own sample is
nonnegative. -/
def firstCrossing (b : ℕ → ℤ) : Option ℕ :=
  findFirst (fun i => decide (b (i - 1) < 0) && decide (0 ≤ b i)) (4096 - 2) 1

/-- The set of rising-zero-crossing indices scanned by the trigger loop,
used to state what firstCrossing returns. -/
def crossSet (b : ℕ → ℤ) : Set ℕ :=
  {i | 1 ≤ i ∧ i < 4095 ∧ b (i - 1) < 0 ∧ 0 ≤ b i}

/-- The trigger_offset update of a non-squelched cycle
(src/main.c lines 181-187). -/
def triggerUpdate (b : ℕ → ℤ) (lock : Bool) (old : ℕ) : ℕ :=
  if lock then
    match firstCrossing b with
    | some i => i
    | none => old
  else 0

noncomputable section

/-- Hann window coefficient (src/main.c line 190). -/
def hann (i : ℕ) : ℝ := 0.5 * (1 - Real.cos (2 * Real.pi * i / (4096 - 1)))

/-- The windowed complex FFT input built from the capture buffer
(src/main.c lines 189-193): real part sample times Hann coefficient,
imaginary part zero. -/
def windowedInput (b : ℕ → ℤ) (i : ℕ) : ℂ := ((b i : ℝ) * hann i : ℝ)

/-- The spectrum of the current capture buffer: fft of the windowed input
at the power-of-two size 4096 = 2 ^ 12 (src/main.c line 194). -/
def fftSpectrum (b : ℕ → ℤ) : ℕ → ℂ := fftRec 12 (windowedInput b)

/-- Bin magnitude (src/main.c line 198). -/
def binMag (b : ℕ → ℤ) (i : ℕ) : ℝ :=
  Real.sqrt ((fftSpectrum b i).re * (fftSpectrum b i).re + (fftSpectrum b i).im * (fftSpectrum b i).im)

/-- Bin magnitude in dB with the 1e-9 epsilon (src/main.c line 199). -/
def binDb (b : ℕ → ℤ) (i : ℕ) : ℝ := 20 * Real.logb 10 (binMag b i + 1e-9)

/-- RMS of the whole capture buffer (src/main.c lines 175-178). -/
def rmsOf (b : ℕ → ℤ) : ℝ :=
  Real.sqrt ((∑ i ∈ Finset.range 4096, (b i : ℝ) * (b i : ℝ)) / 4096)

/-- The peak search over bins 1 .. 2047 (src/main.c lines 196-200):
fold of (max_db, peak_index) starting from (-1000, 0), replacing the pair
whenever a strictly larger dB value is seen. -/
def peakScan (db : ℕ → ℝ) : ℝ × ℕ :=
  ((List.range (2048 - 1)).map (fun j => j + 1)).foldl
    (fun acc i => if acc.1 < db i then (db i, i) else acc) (-1000, 0)

/-- The peak-hold maximum update of a non-squelched cycle
(src/main.c lines 201-203): bins 1 .. 2047 are raised to the new dB value
when it exceeds the held one. -/
def holdMax (hold db : ℕ → ℝ) : ℕ → ℝ := fun i =>
  if 1 ≤ i ∧ i < 2048 ∧ hold i < db i then db i else hold i

/-- The unconditional slow peak-hold decay (src/main.c lines 231-233). -/
def holdDecay (hold : ℕ → ℝ) : ℕ → ℝ := fun i =>
  if i < 2048 then hold i * 0.9995 else hold i

/-- target_freq from the peak index (src/main.c lines 206-207). -/
def targetFreq (idx : ℕ) : ℝ := (idx : ℝ) / (4096 / 2) * (44100 / 2)

/-- The raw auto-timebase sample target (src/main.c line 210), including
the else-2048 fallback taken when target_freq is not positive. -/
def targetSamplesRaw (tf : ℝ) : ℤ := if 0 < tf then ctrunc (4 * (44100 / tf)) else 2048

/-- The clamped auto-timebase sample target (src/main.c lines 210-212). -/
def targetSamplesClamped (tf : ℝ) : ℤ :=
  let t0 := targetSamplesRaw tf
  let t1 := if t0 < 100 then 100 else t0
  if 4096 < t1 then 4096 else t1

/-- The argument of the logarithmic frequency-to-position map
(src/main.c line 220), with the substitute 1.0 guard. -/
def logArg (tf : ℝ) : ℝ := if 0 < tf then tf else 1.0

/-- The smoothed peak marker x target (src/main.c lines 218-221), using the
spectrum panel geometry x = 10, w = 1004. -/
def targetX (tf : ℝ) : ℝ :=
  10 + ((Real.logb 10 (logArg tf) - Real.logb 10 20) /
    (Real.logb 10 (44100 / 2) - Real.logb 10 20)) * 1004

/-- The scope_display_samples update of a non-squelched cycle
(src/main.c lines 209-216). -/
def scopeSamplesNext (auto : Bool) (cur : ℤ) (tf : ℝ) : ℤ :=
  if auto then ctrunc (0.95 * (cur : ℝ) + 0.05 * (targetSamplesClamped tf : ℝ))
  else 2048

/-- The application state touched by one analysis pass of the main loop. -/
structure AnalysisState where
  rec_buffer : ℕ → ℤ
  trigger_offset : ℕ
  peak_hold : ℕ → ℝ
  marker_x : ℝ
  marker_db : ℝ
  marker_freq : ℝ
  scope_display_samples : ℤ
  squelch_threshold : ℝ
  trigger_lock_on : Bool
  auto_timebase_on : Bool

/-- One analysis pass of the main loop (src/main.c lines 173-235): if the
buffer RMS exceeds the squelch threshold, update the trigger offset, run the
windowed FFT, search the peak, raise the peak-hold bins, update the
adaptive timebase and the smoothed peak marker; otherwise decay the marker
dB and snap it to the 20 dB floor.  In both cases every peak-hold bin then
decays by the factor 0.9995. -/
def analysisCycle (s : AnalysisState) : AnalysisState :=
  if s.squelch_threshold < rmsOf s.rec_buffer then
    let db := binDb s.rec_buffer
    let pk := peakScan db
    let tf := targetFreq pk.2
    { s with
      trigger_offset := triggerUpdate s.rec_buffer s.trigger_lock_on s.trigger_offset
      peak_hold := holdDecay (holdMax s.peak_hold db)
      scope_display_samples := scopeSamplesNext s.auto_timebase_on s.scope_display_samples tf
      marker_x := 0.7 * s.marker_x + 0.3 * targetX tf
      marker_db := 0.7 * s.marker_db + 0.3 * pk.1
      marker_freq := tf }
  else
    { s with
      marker_db := if s.marker_db * 0.99 < 20 then 20 else s.marker_db * 0.99
      marker_freq := if s.marker_db * 0.99 < 20 then 0 else s.marker_freq
      peak_hold := holdDecay s.peak_hold }

/-- reset_peak_hold (src/main.c lines 505-509): every hold bin is set to the
floor sentinel -1000. -/
def reset_peak_hold (s : AnalysisState) : AnalysisState :=
  { s with peak_hold := fun _ => -1000 }

/-- A concrete state with a silent capture buffer (RMS 0, below the 500
squelch threshold), trigger lock disabled and a remembered trigger offset. -/
def silentState : AnalysisState :=
  { rec_buffer := fun _ => 0
    trigger_offset := 5
    peak_hold := fun _ => 0
    marker_x := 0
    marker_db := 0
    marker_freq := 0
    scope_display_samples := 2048
    squelch_threshold := 500
    trigger_lock_on := false
    auto_timebase_on := true }

/-- A concrete state with a loud capture buffer (RMS 1000, above the 500
squelch threshold) whose single rising zero crossing is at index 1. -/
def loudState : AnalysisState :=
  { rec_buffer := fun i => if i = 0 then -1000 else 1000
    trigger_offset := 0
    peak_hold := fun _ => -1000
    marker_x := 0
    marker_db := 0
    marker_freq := 0
    scope_display_samples := 2048
    squelch_threshold := 500
    trigger_lock_on := true
    auto_timebase_on := true }

end

-- Basic facts about the complex exponential helper.

theorem eC_add (r s : ℝ) : eC (r + s) = eC r * eC s := by
  simp only [eC, Complex.ofReal_add, add_mul, Complex.exp_add]

theorem eC_zero : eC 0 = 1 := by simp [eC]

theorem eC_neg_two_pi_nat (j : ℕ) : eC (-(2 * Real.pi * j)) = 1 := by
  have h : ((-(2 * Real.pi * j) : ℝ) : ℂ) * Complex.I =
      ((-(j : ℤ) : ℤ) : ℂ) * (2 * Real.pi * Complex.I) := by
    push_cast
    ring
  rw [eC, h]
  exact Complex.exp_int_mul_two_pi_mul_I (-(j : ℤ))

theorem eC_neg_pi : eC (-Real.pi) = -1 := by
  have h : ((-Real.pi : ℝ) : ℂ) * Complex.I = -(Real.pi * Complex.I) := by
    push_cast
    ring
  rw [eC, h, Complex.exp_neg, Complex.exp_pi_mul_I]
  norm_num

/-- Splitting a sum over an even range into even and odd indexed parts. -/
theorem sum_range_even_odd (f : ℕ → ℂ) (m : ℕ) :
    ∑ j ∈ Finset.range (2 * m), f j =
      (∑ j ∈ Finset.range m, f (2 * j)) + ∑ j ∈ Finset.range m, f (2 * j + 1) := by
  induction m with
  | zero => simp
  | succ m ih =>
    have h2 : 2 * (m + 1) = (2 * m + 1) + 1 := by ring
    rw [h2, Finset.sum_range_succ, Finset.sum_range_succ, ih,
      Finset.sum_range_succ, Finset.sum_range_succ]
    ring

/-- Twiddle angle of an even input index: the even-indexed terms of a size
2 ^ (m + 1) transform use the twiddle angles of a size 2 ^ m transform. -/
theorem angle_even (m j k : ℕ) :
    -(2 * Real.pi * ((2 * j : ℕ) * (k : ℝ))) / ((2 ^ (m + 1) : ℕ) : ℝ) =
      -(2 * Real.pi * ((j : ℝ) * k)) / ((2 ^ m : ℕ) : ℝ) := by
  have h2 : ((2 : ℝ)) ^ m ≠ 0 := by positivity
  push_cast
  rw [pow_succ]
  field_simp
  ring

/-- Twiddle angle of an odd input index: one factor of the half-size angle
plus the combination twiddle of the C recombination loop. -/
theorem angle_odd (m j k : ℕ) :
    -(2 * Real.pi * ((2 * j + 1 : ℕ) * (k : ℝ))) / ((2 ^ (m + 1) : ℕ) : ℝ) =
      -(2 * Real.pi * k) / (2 ^ (m + 1)) +
        -(2 * Real.pi * ((j : ℝ) * k)) / ((2 ^ m : ℕ) : ℝ) := by
  have h2 : ((2 : ℝ)) ^ m ≠ 0 := by positivity
  push_cast
  rw [pow_succ]
  field_simp
  ring

/-- Periodicity of the half-size transform kernel in the frequency index. -/
theorem eC_angle_shift (m j k : ℕ) :
    eC (-(2 * Real.pi * ((j : ℝ) * ((k + 2 ^ m : ℕ) : ℝ))) / ((2 ^ m : ℕ) : ℝ)) =
      eC (-(2 * Real.pi * ((j : ℝ) * k)) / ((2 ^ m : ℕ) : ℝ)) := by
  have h2 : ((2 : ℝ)) ^ m ≠ 0 := by positivity
  have h : -(2 * Real.pi * ((j : ℝ) * ((k + 2 ^ m : ℕ) : ℝ))) / ((2 ^ m : ℕ) : ℝ) =
      -(2 * Real.pi * ((j : ℝ) * k)) / ((2 ^ m : ℕ) : ℝ) + -(2 * Real.pi * j) := by
    push_cast
    field_simp
    ring
  rw [h, eC_add, eC_neg_two_pi_nat, mul_one]

/-- The twiddle factor at frequency k + 2 ^ m is the negation of the twiddle
factor at k: this is why the C loop writes even[k] - t at position k + n/2. -/
theorem eC_twiddle_shift (m k : ℕ) :
    eC (-(2 * Real.pi * ((k + 2 ^ m : ℕ) : ℝ)) / (2 ^ (m + 1))) =
      -eC (-(2 * Real.pi * (k : ℝ)) / (2 ^ (m + 1))) := by
  have h2 : ((2 : ℝ)) ^ m ≠ 0 := by positivity
  have h : -(2 * Real.pi * ((k + 2 ^ m : ℕ) : ℝ)) / ((2 : ℝ) ^ (m + 1)) =
      -(2 * Real.pi * (k : ℝ)) / (2 ^ (m + 1)) + -Real.pi := by
    push_cast
    rw [pow_succ]
    field_simp
    ring
  rw [h, eC_add, eC_neg_pi]
  ring

/-- Claim C1 core: the recursive radix-2 FFT of src/main.c computes the
discrete Fourier transform on every power-of-two length input. -/
theorem fftRec_eq_dft :
    ∀ (m : ℕ) (x : ℕ → ℂ) (k : ℕ), k < 2 ^ m → fftRec m x k = dft (2 ^ m) x k := by
  intro m
  induction m with
  | zero =>
    intro x k hk
    obtain rfl : k = 0 := by omega
    simp [fftRec, dft, eC_zero]
  | succ m ih =>
    intro x k hk
    have hsplit : (2 : ℕ) ^ (m + 1) = 2 * 2 ^ m := by rw [pow_succ]; ring
    by_cases hkm : k < 2 ^ m
    · have hunf : fftRec (m + 1) x k =
          fftRec m (fun j => x (2 * j)) k +
            eC (-(2 * Real.pi * k) / (2 ^ (m + 1))) * fftRec m (fun j => x (2 * j + 1)) k := by
        simp only [fftRec]
        rw [if_pos hkm]
      have hL : dft (2 ^ (m + 1)) x k =
          ∑ j ∈ Finset.range (2 * 2 ^ m),
            x j * eC (-(2 * Real.pi * ((j : ℝ) * k)) / ((2 ^ (m + 1) : ℕ) : ℝ)) := by
        rw [dft, hsplit]
      rw [hunf, ih _ _ hkm, ih _ _ hkm, hL]
      rw [sum_range_even_odd
        (fun j => x j * eC (-(2 * Real.pi * ((j : ℝ) * k)) / ((2 ^ (m + 1) : ℕ) : ℝ)))]
      have he : ∀ j ∈ Finset.range (2 ^ m),
          x (2 * j) * eC (-(2 * Real.pi * (((2 * j : ℕ) : ℝ) * k)) / ((2 ^ (m + 1) : ℕ) : ℝ)) =
            x (2 * j) * eC (-(2 * Real.pi * ((j : ℝ) * k)) / ((2 ^ m : ℕ) : ℝ)) := by
        intro j _
        rw [angle_even]
      have ho : ∀ j ∈ Finset.range (2 ^ m),
          x (2 * j + 1) * eC (-(2 * Real.pi * (((2 * j + 1 : ℕ) : ℝ) * k)) / ((2 ^ (m + 1) : ℕ) : ℝ)) =
            eC (-(2 * Real.pi * k) / (2 ^ (m + 1))) *
              (x (2 * j + 1) * eC (-(2 * Real.pi * ((j : ℝ) * k)) / ((2 ^ m : ℕ) : ℝ))) := by
        intro j _
        rw [angle_odd, eC_add]
        push_cast
        ring
      rw [Finset.sum_congr rfl he, Finset.sum_congr rfl ho, ← Finset.mul_sum]
      rfl
    · obtain ⟨k1, rfl⟩ : ∃ k1, k = k1 + 2 ^ m :=
        ⟨k - 2 ^ m, (Nat.sub_add_cancel (le_of_not_lt hkm)).symm⟩
      have hk1 : k1 < 2 ^ m := by omega
      have hunf : fftRec (m + 1) x (k1 + 2 ^ m) =
          fftRec m (fun j => x (2 * j)) k1 -
            eC (-(2 * Real.pi * k1) / (2 ^ (m + 1))) * fftRec m (fun j => x (2 * j + 1)) k1 := by
        simp only [fftRec]
        rw [if_neg (by omega), Nat.add_sub_cancel]
      have hL : dft (2 ^ (m + 1)) x (k1 + 2 ^ m) =
          ∑ j ∈ Finset.range (2 * 2 ^ m),
            x j * eC (-(2 * Real.pi * ((j : ℝ) * ((k1 + 2 ^ m : ℕ) : ℝ))) /
              ((2 ^ (m + 1) : ℕ) : ℝ)) := by
        rw [dft, hsplit]
      rw [hunf, ih _ _ hk1, ih _ _ hk1, hL]
      rw [sum_range_even_odd
        (fun j => x j * eC (-(2 * Real.pi * ((j : ℝ) * ((k1 + 2 ^ m : ℕ) : ℝ))) /
          ((2 ^ (m + 1) : ℕ) : ℝ)))]
      have he : ∀ j ∈ Finset.range (2 ^ m),
          x (2 * j) *
              eC (-(2 * Real.pi * (((2 * j : ℕ) : ℝ) * ((k1 + 2 ^ m : ℕ) : ℝ))) / ((2 ^ (m + 1) : ℕ) : ℝ)) =
            x (2 * j) * eC (-(2 * Real.pi * ((j : ℝ) * k1)) / ((2 ^ m : ℕ) : ℝ)) := by
        intro j _
        rw [angle_even, eC_angle_shift]
      have ho : ∀ j ∈ Finset.range (2 ^ m),
          x (2 * j + 1) *
              eC (-(2 * Real.pi * (((2 * j + 1 : ℕ) : ℝ) * ((k1 + 2 ^ m : ℕ) : ℝ))) / ((2 ^ (m + 1) : ℕ) : ℝ)) =
            -eC (-(2 * Real.pi * k1) / (2 ^ (m + 1))) *
              (x (2 * j + 1) * eC (-(2 * Real.pi * ((j : ℝ) * k1)) / ((2 ^ m : ℕ) : ℝ))) := by
        intro j _
        rw [angle_odd, eC_add, eC_twiddle_shift, eC_angle_shift]
        push_cast
        ring
      rw [Finset.sum_congr rfl he, Finset.sum_congr rfl ho, ← Finset.mul_sum]
      have hd : dft (2 ^ m) (fun j => x (2 * j)) k1 = ∑ j ∈ Finset.range (2 ^ m),
          x (2 * j) * eC (-(2 * Real.pi * ((j : ℝ) * k1)) / ((2 ^ m : ℕ) : ℝ)) := rfl
      have hd2 : dft (2 ^ m) (fun j => x (2 * j + 1)) k1 = ∑ j ∈ Finset.range (2 ^ m),
          x (2 * j + 1) * eC (-(2 * Real.pi * ((j : ℝ) * k1)) / ((2 ^ m : ℕ) : ℝ)) := rfl
      rw [hd, hd2]
      ring

-- Control surface clamping (claim C9).

theorem applyKey_inv (c : Controls) (k : ControlKey) (h : controlsInv c) :
    controlsInv (applyKey c k) := by
  obtain ⟨h1, h2, h3⟩ := h
  cases k <;> dsimp only [applyKey, controlsInv] <;>
    refine ⟨?_, ?_, ?_⟩ <;> first
      | linarith
      | (split_ifs with hh <;> linarith)

/-- C9: starting from the initial control state, after any sequence of
control-surface key updates the invariant squelch_threshold >= 0,
visual_gain >= 0 and scope_gain >= 0.1 holds; every decrement is clamped on
update and no update is rejected (applyKey is total). -/
theorem controls_always_clamped (keys : List ControlKey) :
    controlsInv (keys.foldl applyKey initControls) := by
  have hinit : controlsInv initControls := by
    refine ⟨?_, ?_, ?_⟩ <;> norm_num [initControls]
  suffices h : ∀ c : Controls, controlsInv c → controlsInv (keys.foldl applyKey c) from
    h _ hinit
  induction keys with
  | nil => exact fun c hc => hc
  | cons k ks ih => exact fun c hc => ih _ (applyKey_inv c k hc)

-- Sweep state machine (claim C4).

theorem sweepStep_mid (t : ℚ) (u : Bool) (c : ℚ) (h : t + 1 / 44100 < 20) :
    sweepStep ⟨t, u, c⟩ = ⟨t + 1 / 44100, u,
      if u then 20 + (5000 - 20) * (t / 20) else 5000 - (5000 - 20) * (t / 20)⟩ := by
  simp only [sweepStep]
  rw [if_neg (not_le.mpr h)]

theorem sweepStep_wrap (t : ℚ) (u : Bool) (c : ℚ) (h : 20 ≤ t + 1 / 44100) :
    sweepStep ⟨t, u, c⟩ = ⟨0, !u,
      if u then 20 + (5000 - 20) * (t / 20) else 5000 - (5000 - 20) * (t / 20)⟩ := by
  simp only [sweepStep]
  rw [if_pos h]

theorem sweepStep_iterate (u : Bool) (c : ℚ) :
    ∀ n : ℕ, n ≤ 881999 →
      sweepStep^[n] ⟨0, u, c⟩ =
        ⟨(n : ℚ) / 44100, u, if n = 0 then c else sweepFreqAt u (n - 1)⟩ := by
  intro n
  induction n with
  | zero => intro _; norm_num
  | succ n ih =>
    intro hn
    rw [Function.iterate_succ_apply', ih (by omega)]
    have hstep : ((n : ℚ) / 44100) + 1 / 44100 < 20 := by
      rw [div_add_div_same, div_lt_iff₀ (by norm_num)]
      have hn1 : (n : ℚ) ≤ 881998 := by exact_mod_cast Nat.lt_succ_iff.mp (by omega)
      linarith
    rw [sweepStep_mid _ _ _ hstep]
    have ht : ((n : ℚ)) / 44100 + 1 / 44100 = ((n + 1 : ℕ) : ℚ) / 44100 := by
      rw [div_add_div_same]
      push_cast
      ring_nf
    have hf : (if u then 20 + (5000 - 20) * (((n : ℚ) / 44100) / 20)
        else 5000 - (5000 - 20) * (((n : ℚ) / 44100) / 20)) = sweepFreqAt u n := by
      unfold sweepFreqAt
      cases u <;> norm_num <;> ring
    rw [ht, hf]
    norm_num

theorem sweep_halfcycle (u : Bool) (c : ℚ) :
    sweepStep^[882000] ⟨0, u, c⟩ =
      ⟨0, !u, if u then 73499917 / 14700 else 294083 / 14700⟩ := by
  rw [show (882000 : ℕ) = 881999 + 1 from rfl, Function.iterate_succ_apply',
    sweepStep_iterate u c 881999 (le_refl _)]
  rw [sweepStep_wrap _ _ _ (by norm_num)]
  cases u <;> norm_num

/-- C4 counterexample: in exact arithmetic, after exactly 882000 unpaused
synthesis samples from the initial ascending state, current_freq is not
5000: the last frequency was computed from the pre-increment sweep_time
881999 / 44100, one sample-step short of the sweep end. -/
theorem sweep_after_20s_counterexample :
    (sweepStep^[882000] initSweep).current_freq ≠ 5000 := by
  rw [show initSweep = ⟨0, true, 20⟩ from rfl, sweep_halfcycle true 20]
  norm_num

/-- C4 amended: after exactly 882000 unpaused samples the direction has
flipped to descending and current_freq is 20 + 4980 * (881999 / 882000) =
73499917 / 14700 (about 4999.994, one sample-step short of 5000; the exact
value 5000 is produced on the immediately following sample); after another
882000 samples the direction is ascending again and current_freq is
5000 - 4980 * (881999 / 882000) = 294083 / 14700 (about 20.006). -/
theorem sweep_roundtrip_amended :
    sweepStep^[882000] initSweep = ⟨0, false, 73499917 / 14700⟩ ∧
    sweepStep^[1764000] initSweep = ⟨0, true, 294083 / 14700⟩ := by
  have hini : initSweep = (⟨0, true, 20⟩ : SweepState) := rfl
  have h1 : sweepStep^[882000] initSweep = ⟨0, false, 73499917 / 14700⟩ := by
    rw [hini, sweep_halfcycle true 20]
    norm_num
  refine ⟨h1, ?_⟩
  rw [show (1764000 : ℕ) = 882000 + 882000 from rfl, Function.iterate_add_apply, h1,
    sweep_halfcycle false _]
  norm_num

-- Waveform value bounds (claims C6 and C5).

theorem ctrunc_of_nonneg (x : ℝ) (h : 0 ≤ x) : ctrunc x = ⌊x⌋ := if_pos h

theorem cfmod_nonneg_lt (x y : ℝ) (hx : 0 ≤ x) (hy : 0 < y) :
    0 ≤ cfmod x y ∧ cfmod x y < y := by
  have hdiv : 0 ≤ x / y := div_nonneg hx hy.le
  have hyx : y * (x / y) = x := by field_simp
  have hkey : cfmod x y = y * Int.fract (x / y) := by
    unfold cfmod
    rw [ctrunc_of_nonneg _ hdiv, Int.fract, mul_sub, hyx]
  rw [hkey]
  constructor
  · exact mul_nonneg hy.le (Int.fract_nonneg _)
  · calc y * Int.fract (x / y) < y * 1 :=
        mul_lt_mul_of_pos_left (Int.fract_lt_one _) hy
    _ = y := mul_one y

theorem waveValue_bounds_aux (w : WaveformType) (phase : ℝ) (hph : 0 ≤ phase) :
    -1 ≤ waveValue w phase ∧ waveValue w phase ≤ 1 ∧
      (w = WaveformType.WAVE_SQUARE →
        waveValue w phase = 1 ∨ waveValue w phase = -1) := by
  have hpi := Real.pi_pos
  cases w with
  | WAVE_SINE =>
    exact ⟨Real.neg_one_le_sin phase, Real.sin_le_one phase, fun h => nomatch h⟩
  | WAVE_SQUARE =>
    dsimp only [waveValue]
    split_ifs with h
    · exact ⟨by norm_num, le_refl 1, fun _ => Or.inl rfl⟩
    · exact ⟨le_refl (-1), by norm_num, fun _ => Or.inr rfl⟩
  | WAVE_SAWTOOTH =>
    have h2pi : (0 : ℝ) < 2 * Real.pi := by linarith
    obtain ⟨hm0, hm1⟩ := cfmod_nonneg_lt phase (2 * Real.pi) hph h2pi
    dsimp only [waveValue]
    have hdiv0 : 0 ≤ cfmod phase (2 * Real.pi) / Real.pi := div_nonneg hm0 hpi.le
    have hdiv2 : cfmod phase (2 * Real.pi) / Real.pi < 2 := by
      rw [div_lt_iff₀ hpi]
      linarith
    exact ⟨by linarith, by linarith, fun h => nomatch h⟩
  | WAVE_TRIANGLE =>
    have h2pi : (0 : ℝ) < 2 * Real.pi := by linarith
    obtain ⟨hf0, hf1⟩ :=
      cfmod_nonneg_lt (phase / (2 * Real.pi)) 1 (div_nonneg hph h2pi.le) one_pos
    dsimp only [waveValue]
    have habs : |cfmod (phase / (2 * Real.pi)) 1 * 2 - 1| ≤ 1 :=
      abs_le.mpr ⟨by linarith, by linarith⟩
    have habs0 : 0 ≤ |cfmod (phase / (2 * Real.pi)) 1 * 2 - 1| := abs_nonneg _
    exact ⟨by linarith, by linarith, fun h => nomatch h⟩

/-- C6: for every nonnegative phase and each of the four waveform kinds the
pre-scaling synthesized value lies within [-1, 1], and for the square
waveform the value is exactly 1 or exactly -1. -/
theorem waveValue_bounded (w : WaveformType) (phase : ℝ) (hph : 0 ≤ phase) :
    -1 ≤ waveValue w phase ∧ waveValue w phase ≤ 1 ∧
      (w = WaveformType.WAVE_SQUARE →
        waveValue w phase = 1 ∨ waveValue w phase = -1) :=
  waveValue_bounds_aux w phase hph

/-- Witness for C6 at the concrete phase 0 and the square waveform. -/
theorem waveValue_bounded_witness :
    (0 : ℝ) ≤ 0 ∧
      (-1 ≤ waveValue WaveformType.WAVE_SQUARE 0 ∧
        waveValue WaveformType.WAVE_SQUARE 0 ≤ 1 ∧
        (WaveformType.WAVE_SQUARE = WaveformType.WAVE_SQUARE →
          waveValue WaveformType.WAVE_SQUARE 0 = 1 ∨
            waveValue WaveformType.WAVE_SQUARE 0 = -1)) :=
  ⟨le_refl 0, waveValue_bounded WaveformType.WAVE_SQUARE 0 (le_refl 0)⟩

/-- C5 counterexample: at phase (2 - 1/8000) * pi the sawtooth value is
1 - 1/8000, so 12000 * value is 11998.5; the C cast truncates it to 11998
while rounding gives 11999, so the written sample is not round(12000 * v). -/
theorem outSample_round_counterexample :
    outSample WaveformType.WAVE_SAWTOOTH ((2 - 1 / 8000) * Real.pi) ≠
      round (12000 * waveValue WaveformType.WAVE_SAWTOOTH ((2 - 1 / 8000) * Real.pi)) := by
  have hpi := Real.pi_pos
  have hv : waveValue WaveformType.WAVE_SAWTOOTH ((2 - 1 / 8000) * Real.pi) =
      1 - 1 / 8000 := by
    dsimp only [waveValue]
    have harg : ((2 - 1 / 8000) * Real.pi) / (2 * Real.pi) = 1 - 1 / 16000 := by
      rw [div_eq_iff (by positivity)]
      ring
    unfold cfmod
    rw [harg, ctrunc_of_nonneg _ (by norm_num)]
    have hfl : ⌊(1 - 1 / 16000 : ℝ)⌋ = 0 := by
      rw [Int.floor_eq_zero_iff]
      constructor <;> norm_num
    rw [hfl]
    push_cast
    field_simp
    ring
  unfold outSample
  rw [hv]
  have h1 : ctrunc (12000 * (1 - 1 / 8000 : ℝ)) = 11998 := by
    rw [ctrunc_of_nonneg _ (by norm_num)]
    rw [show (12000 : ℝ) * (1 - 1 / 8000) = 11998 + 1 / 2 by norm_num]
    rw [Int.floor_eq_iff]
    constructor <;> norm_num
  have h2 : round ((12000 : ℝ) * (1 - 1 / 8000)) = 11999 := by
    rw [round_eq]
    rw [show (12000 : ℝ) * (1 - 1 / 8000) + 1 / 2 = 11999 by norm_num]
    norm_num
  rw [h1, h2]
  norm_num

/-- C5 amended: the sample written to the output block is the truncation
toward zero (not the rounding) of 12000 * v, so it is within one unit of
12000 * v and lies in [-12000, 12000], strictly inside the signed 16-bit
range, so no output sample clips. -/
theorem outSample_trunc_bounds (w : WaveformType) (phase : ℝ) (hph : 0 ≤ phase) :
    |(outSample w phase : ℝ) - 12000 * waveValue w phase| < 1 ∧
    -12000 ≤ outSample w phase ∧ outSample w phase ≤ 12000 := by
  obtain ⟨hl, hu, _⟩ := waveValue_bounds_aux w phase hph
  have h1 : (-12000 : ℝ) ≤ 12000 * waveValue w phase := by linarith
  have h2 : 12000 * waveValue w phase ≤ 12000 := by linarith
  unfold outSample ctrunc
  split_ifs with h
  · refine ⟨?_, ?_, ?_⟩
    · rw [abs_lt]
      have hfl := Int.sub_one_lt_floor (12000 * waveValue w phase)
      have hfu := Int.floor_le (12000 * waveValue w phase)
      constructor <;> linarith
    · exact Int.le_floor.mpr (by push_cast; linarith)
    · have hfu := Int.floor_le (12000 * waveValue w phase)
      have : ((⌊12000 * waveValue w phase⌋ : ℤ) : ℝ) ≤ 12000 := by linarith
      exact_mod_cast this
  · refine ⟨?_, ?_, ?_⟩
    · rw [abs_lt]
      have hcl := Int.le_ceil (12000 * waveValue w phase)
      have hcu := Int.ceil_lt_add_one (12000 * waveValue w phase)
      constructor <;> linarith
    · have hcl := Int.le_ceil (12000 * waveValue w phase)
      have : (-12000 : ℝ) ≤ ((⌈12000 * waveValue w phase⌉ : ℤ) : ℝ) := by linarith
      exact_mod_cast this
    · exact Int.ceil_le.mpr (by push_cast; linarith)

/-- Witness for the amended C5 at the concrete phase 0 and the sine
waveform. -/
theorem outSample_trunc_bounds_witness :
    (0 : ℝ) ≤ 0 ∧
      (|(outSample WaveformType.WAVE_SINE 0 : ℝ) -
          12000 * waveValue WaveformType.WAVE_SINE 0| < 1 ∧
        -12000 ≤ outSample WaveformType.WAVE_SINE 0 ∧
        outSample WaveformType.WAVE_SINE 0 ≤ 12000) :=
  ⟨le_refl 0, outSample_trunc_bounds WaveformType.WAVE_SINE 0 (le_refl 0)⟩

-- Note mapper (claim C8).

/-- C8 amended: freq_to_note returns the "---" sentinel for every frequency
at or below 0; for every positive frequency whose rounded note number is
nonnegative (every frequency of roughly 8.4 Hz or more) it returns
chromatic_names[note_number mod 12] concatenated with note_number / 12 - 1.
For positive frequencies with a negative note number the C remainder is
negative and the array access is out of bounds (see the counterexample). -/
theorem freq_to_note_spec (f : ℝ) :
    (f ≤ 0 → freq_to_note f = some "---") ∧
    (0 < f → 0 ≤ noteNum f →
      freq_to_note f =
        some (noteNames.getD (noteNum f % 12).toNat "" ++
          toString (noteNum f / 12 - 1))) := by
  constructor
  · intro h
    unfold freq_to_note
    rw [if_pos h]
  · intro hf hn
    unfold freq_to_note
    rw [if_neg (not_le.mpr hf)]
    dsimp only
    have h12 : (0 : ℤ) ≤ 12 := by norm_num
    have hmod : (noteNum f).tmod 12 = noteNum f % 12 := Int.tmod_eq_emod hn h12
    have hdivq : (noteNum f).tdiv 12 = noteNum f / 12 := Int.tdiv_eq_ediv hn h12
    have hmod0 : 0 ≤ noteNum f % 12 := Int.emod_nonneg _ (by norm_num)
    have hmodlt : noteNum f % 12 < 12 := Int.emod_lt_of_pos _ (by norm_num)
    rw [hmod, hdivq]
    have hlen : noteNames.length = 12 := rfl
    rw [if_pos ⟨hmod0, by rw [hlen]; omega⟩]

/-- Witness for the amended C8 at the concrete frequency 440 Hz, which maps
to note number 69 and so to the name A4. -/
theorem freq_to_note_spec_witness :
    (0 : ℝ) < 440 ∧ 0 ≤ noteNum 440 ∧ freq_to_note 440 = some "A4" := by
  have h69 : noteNum 440 = 69 := by
    unfold noteNum
    rw [div_self (by norm_num : (440 : ℝ) ≠ 0), Real.logb_one]
    unfold cround
    rw [if_pos (by norm_num)]
    rw [show (12 : ℝ) * 0 + 69 + 1 / 2 = 69 + 1 / 2 by norm_num]
    rw [Int.floor_eq_iff]
    constructor <;> norm_num
  refine ⟨by norm_num, by rw [h69]; norm_num, ?_⟩
  have h := (freq_to_note_spec 440).2 (by norm_num) (by rw [h69]; norm_num)
  rw [h, h69]
  decide

/-- C8 counterexample: the frequency 440 * 2 ^ (-26/3) (about 1.08 Hz) is
positive but yields note number -35; the C remainder -35 % 12 is -11, so
note_names[-11] reads out of bounds (undefined behaviour), modelled as
none: the function does not return a chromatic name for this positive
frequency. -/
theorem freq_to_note_counterexample :
    0 < (440 : ℝ) * 2 ^ ((-26 : ℝ) / 3) ∧
      freq_to_note ((440 : ℝ) * 2 ^ ((-26 : ℝ) / 3)) = none := by
  have hpos : (0 : ℝ) < 440 * 2 ^ ((-26 : ℝ) / 3) := by positivity
  refine ⟨hpos, ?_⟩
  have hlog : Real.logb 2 ((440 * 2 ^ ((-26 : ℝ) / 3)) / 440) = (-26) / 3 := by
    rw [mul_comm, mul_div_assoc, div_self (by norm_num : (440 : ℝ) ≠ 0), mul_one]
    exact Real.logb_rpow (by norm_num) (by norm_num)
  have hnn : noteNum (440 * 2 ^ ((-26 : ℝ) / 3)) = -35 := by
    unfold noteNum
    rw [hlog]
    rw [show (12 : ℝ) * ((-26) / 3) + 69 = -35 by norm_num]
    unfold cround
    rw [if_neg (by norm_num)]
    rw [Int.ceil_eq_iff]
    constructor <;> norm_num
  unfold freq_to_note
  rw [if_neg (not_le.mpr hpos), hnn]
  decide

-- FFT and impulse response (claim C1).

theorem dft_impulse (n k : ℕ) (hn : 0 < n) : dft n impulse k = 1 := by
  unfold dft
  rw [Finset.sum_eq_single 0]
  · simp [impulse, eC_zero]
  · intro j _ hj
    unfold impulse
    rw [if_neg hj, zero_mul]
  · intro h0
    exact absurd (Finset.mem_range.mpr hn) h0

/-- C1: for every complex input of power-of-two length 2 ^ m and every bin
k below 2 ^ m, the recursive radix-2 fft computes the discrete Fourier
transform X[k] = sum over j of x[j] * exp(-2 pi i j k / n); in particular
the transform of the unit impulse [1, 0, 0, ...] has magnitude exactly 1 in
every bin. -/
theorem fft_computes_dft (m : ℕ) (x : ℕ → ℂ) (k : ℕ) (hk : k < 2 ^ m) :
    fftRec m x k = dft (2 ^ m) x k ∧ Complex.abs (fftRec m impulse k) = 1 := by
  refine ⟨fftRec_eq_dft m x k hk, ?_⟩
  rw [fftRec_eq_dft m impulse k hk, dft_impulse _ _ (by positivity)]
  simp

/-- Witness for C1 at the concrete size 2 ^ 2 and bin 2. -/
theorem fft_computes_dft_witness :
    2 < 2 ^ 2 ∧ (fftRec 2 impulse 2 = dft (2 ^ 2) impulse 2 ∧
      Complex.abs (fftRec 2 impulse 2) = 1) :=
  ⟨by norm_num, fft_computes_dft 2 impulse 2 (by norm_num)⟩

-- Analysis-cycle branch shapes and buffer invariance.

theorem analysisCycle_squelched (s : AnalysisState)
    (hs : rmsOf s.rec_buffer ≤ s.squelch_threshold) :
    analysisCycle s = { s with
      marker_db := if s.marker_db * 0.99 < 20 then 20 else s.marker_db * 0.99
      marker_freq := if s.marker_db * 0.99 < 20 then 0 else s.marker_freq
      peak_hold := holdDecay s.peak_hold } := by
  unfold analysisCycle
  rw [if_neg (not_lt.mpr hs)]

theorem analysisCycle_hot (s : AnalysisState)
    (hs : s.squelch_threshold < rmsOf s.rec_buffer) :
    analysisCycle s = { s with
      trigger_offset := triggerUpdate s.rec_buffer s.trigger_lock_on s.trigger_offset
      peak_hold := holdDecay (holdMax s.peak_hold (binDb s.rec_buffer))
      scope_display_samples := scopeSamplesNext s.auto_timebase_on s.scope_display_samples
        (targetFreq (peakScan (binDb s.rec_buffer)).2)
      marker_x := 0.7 * s.marker_x + 0.3 * targetX (targetFreq (peakScan (binDb s.rec_buffer)).2)
      marker_db := 0.7 * s.marker_db + 0.3 * (peakScan (binDb s.rec_buffer)).1
      marker_freq := targetFreq (peakScan (binDb s.rec_buffer)).2 } := by
  unfold analysisCycle
  rw [if_pos hs]

theorem rmsOf_zero : rmsOf (fun _ => 0) = 0 := by
  unfold rmsOf
  simp

theorem rmsOf_loud : rmsOf (fun i => if i = 0 then (-1000 : ℤ) else 1000) = 1000 := by
  unfold rmsOf
  have hterm : ∀ i ∈ Finset.range 4096,
      (((if i = 0 then (-1000 : ℤ) else 1000) : ℤ) : ℝ) *
        (((if i = 0 then (-1000 : ℤ) else 1000) : ℤ) : ℝ) = 1000000 := by
    intro i _
    split_ifs <;> norm_num
  rw [Finset.sum_congr rfl hterm, Finset.sum_const, Finset.card_range]
  rw [show ((4096 : ℕ) • (1000000 : ℝ)) / 4096 = 1000 ^ 2 by
    rw [nsmul_eq_mul]; norm_num]
  exact Real.sqrt_sq (by norm_num)

theorem silentState_squelched :
    rmsOf silentState.rec_buffer ≤ silentState.squelch_threshold := by
  show rmsOf (fun _ => 0) ≤ (500 : ℝ)
  rw [rmsOf_zero]
  norm_num

theorem loudState_hot :
    loudState.squelch_threshold < rmsOf loudState.rec_buffer := by
  show (500 : ℝ) < rmsOf (fun i => if i = 0 then (-1000 : ℤ) else 1000)
  rw [rmsOf_loud]
  norm_num

-- Peak-hold behaviour (claim C2).

theorem analysisCycle_iterate_squelched (s : AnalysisState)
    (hs : rmsOf s.rec_buffer ≤ s.squelch_threshold) :
    ∀ k : ℕ, (analysisCycle^[k] s).rec_buffer = s.rec_buffer ∧
      (analysisCycle^[k] s).squelch_threshold = s.squelch_threshold ∧
      ∀ i, i < 2048 → (analysisCycle^[k] s).peak_hold i = s.peak_hold i * 0.9995 ^ k := by
  intro k
  induction k with
  | zero => simp
  | succ k ih =>
    obtain ⟨hb, ht, hh⟩ := ih
    rw [Function.iterate_succ_apply']
    have hs2 : rmsOf (analysisCycle^[k] s).rec_buffer ≤
        (analysisCycle^[k] s).squelch_threshold := by
      rw [hb, ht]
      exact hs
    rw [analysisCycle_squelched _ hs2]
    refine ⟨hb, ht, ?_⟩
    intro i hi
    show holdDecay (analysisCycle^[k] s).peak_hold i = s.peak_hold i * 0.9995 ^ (k + 1)
    unfold holdDecay
    rw [if_pos hi, hh i hi, pow_succ]
    ring

/-- C2 counterexample: after reset_peak_hold every entry is exactly -1000;
one squelched analysis cycle multiplies it by 0.9995, giving -999.5, which
is strictly greater than -1000: with no qualifying input the hold entries
are not non-increasing. -/
theorem peak_hold_not_nonincreasing :
    (reset_peak_hold silentState).peak_hold 0 <
      (analysisCycle (reset_peak_hold silentState)).peak_hold 0 := by
  have hs : rmsOf (reset_peak_hold silentState).rec_buffer ≤
      (reset_peak_hold silentState).squelch_threshold := silentState_squelched
  rw [analysisCycle_squelched _ hs]
  show (-1000 : ℝ) < holdDecay (fun _ => -1000) 0
  unfold holdDecay
  norm_num

/-- C2 amended: reset_peak_hold sets every entry to exactly -1000; across k
consecutive analysis cycles with no qualifying input each entry equals its
start value times 0.9995 ^ k, so an entry starting at or above -1000 stays
at or above -1000 and a nonnegative entry is non-increasing; entries at the
-1000 floor increase toward 0 under the decay, so non-increasingness holds
only for nonnegative entries (see the counterexample). -/
theorem peak_hold_squelched_run (s : AnalysisState) (k i : ℕ)
    (hs : rmsOf s.rec_buffer ≤ s.squelch_threshold) (hi : i < 2048) :
    (reset_peak_hold s).peak_hold i = -1000 ∧
    (analysisCycle^[k] s).peak_hold i = s.peak_hold i * 0.9995 ^ k ∧
    (-1000 ≤ s.peak_hold i → -1000 ≤ (analysisCycle^[k] s).peak_hold i) ∧
    (0 ≤ s.peak_hold i → (analysisCycle^[k] s).peak_hold i ≤ s.peak_hold i) := by
  obtain ⟨-, -, hh⟩ := analysisCycle_iterate_squelched s hs k
  have heq := hh i hi
  have hp0 : (0 : ℝ) ≤ 0.9995 ^ k := by positivity
  have hp1 : (0.9995 : ℝ) ^ k ≤ 1 := pow_le_one₀ (by norm_num) (by norm_num)
  refine ⟨rfl, heq, ?_, ?_⟩
  · intro hlb
    rw [heq]
    nlinarith
  · intro h0
    rw [heq]
    nlinarith

/-- Witness for the amended C2: the silent state, one cycle, bin 0. -/
theorem peak_hold_squelched_run_witness :
    (rmsOf silentState.rec_buffer ≤ silentState.squelch_threshold) ∧ 0 < 2048 ∧
      ((reset_peak_hold silentState).peak_hold 0 = -1000 ∧
        (analysisCycle^[1] silentState).peak_hold 0 = silentState.peak_hold 0 * 0.9995 ^ 1 ∧
        (-1000 ≤ silentState.peak_hold 0 → -1000 ≤ (analysisCycle^[1] silentState).peak_hold 0) ∧
        (0 ≤ silentState.peak_hold 0 →
          (analysisCycle^[1] silentState).peak_hold 0 ≤ silentState.peak_hold 0)) :=
  ⟨silentState_squelched, by norm_num,
    peak_hold_squelched_run silentState 1 0 silentState_squelched (by norm_num)⟩

-- Squelched-cycle frame effect (claim C7).

/-- C7: in every analysis cycle whose RMS is at or below the squelch
threshold, the marker dB is multiplied by 0.99 and, when the result is
below 20, snapped to exactly 20 with the marker frequency set to 0; the
marker position, trigger offset and display sample count are unchanged, and
every peak-hold bin changes only by the unconditional 0.9995 decay. -/
theorem squelched_cycle_spec (s : AnalysisState)
    (hs : rmsOf s.rec_buffer ≤ s.squelch_threshold) :
    (analysisCycle s).marker_db =
      (if s.marker_db * 0.99 < 20 then 20 else s.marker_db * 0.99) ∧
    (analysisCycle s).marker_freq =
      (if s.marker_db * 0.99 < 20 then 0 else s.marker_freq) ∧
    (analysisCycle s).marker_x = s.marker_x ∧
    (analysisCycle s).trigger_offset = s.trigger_offset ∧
    (analysisCycle s).scope_display_samples = s.scope_display_samples ∧
    ∀ i, i < 2048 → (analysisCycle s).peak_hold i = s.peak_hold i * 0.9995 := by
  rw [analysisCycle_squelched s hs]
  refine ⟨rfl, rfl, rfl, rfl, rfl, ?_⟩
  intro i hi
  show holdDecay s.peak_hold i = _
  unfold holdDecay
  rw [if_pos hi]

/-- Witness for C7 at the concrete silent state. -/
theorem squelched_cycle_spec_witness :
    (rmsOf silentState.rec_buffer ≤ silentState.squelch_threshold) ∧
      ((analysisCycle silentState).marker_db =
        (if silentState.marker_db * 0.99 < 20 then 20 else silentState.marker_db * 0.99) ∧
      (analysisCycle silentState).marker_freq =
        (if silentState.marker_db * 0.99 < 20 then 0 else silentState.marker_freq) ∧
      (analysisCycle silentState).marker_x = silentState.marker_x ∧
      (analysisCycle silentState).trigger_offset = silentState.trigger_offset ∧
      (analysisCycle silentState).scope_display_samples = silentState.scope_display_samples ∧
      ∀ i, i < 2048 →
        (analysisCycle silentState).peak_hold i = silentState.peak_hold i * 0.9995) :=
  ⟨silentState_squelched, squelched_cycle_spec silentState silentState_squelched⟩

-- Trigger detection (claim C3).

theorem findFirst_eq_some (p : ℕ → Bool) :
    ∀ (fuel start i : ℕ), findFirst p fuel start = some i ↔
      (start ≤ i ∧ i < start + fuel ∧ p i = true ∧
        ∀ j, start ≤ j → j < i → p j = false) := by
  intro fuel
  induction fuel with
  | zero =>
    intro start i
    simp only [findFirst]
    constructor
    · intro h
      exact Option.noConfusion h
    · rintro ⟨h1, h2, -, -⟩
      omega
  | succ fuel ih =>
    intro start i
    simp only [findFirst]
    by_cases hp : p start = true
    · rw [if_pos hp]
      constructor
      · intro h
        obtain rfl : start = i := Option.some.inj h
        exact ⟨le_refl _, by omega, hp, fun j h1 h2 => absurd (lt_of_le_of_lt h1 h2) (lt_irrefl _)⟩
      · rintro ⟨h1, h2, h3, h4⟩
        have hei : i = start := by
          by_contra hne
          have hlt : start < i := lt_of_le_of_ne h1 (Ne.symm hne)
          have hf := h4 start (le_refl _) hlt
          rw [hp] at hf
          exact Bool.noConfusion hf
        rw [hei]
    · rw [if_neg hp]
      have hpf : p start = false := by
        revert hp
        cases p start <;> simp
      rw [ih (start + 1) i]
      constructor
      · rintro ⟨h1, h2, h3, h4⟩
        refine ⟨by omega, by omega, h3, ?_⟩
        intro j hj1 hj2
        rcases Nat.eq_or_lt_of_le hj1 with heq | hlt
        · rw [← heq]
          exact hpf
        · exact h4 j (by omega) hj2
      · rintro ⟨h1, h2, h3, h4⟩
        have h1s : start + 1 ≤ i := by
          rcases Nat.eq_or_lt_of_le h1 with heq | hlt
          · rw [← heq] at h3
            rw [hpf] at h3
            exact Bool.noConfusion h3
          · omega
        exact ⟨h1s, by omega, h3, fun j hj1 hj2 => h4 j (by omega) hj2⟩

theorem findFirst_eq_none (p : ℕ → Bool) :
    ∀ (fuel start : ℕ), findFirst p fuel start = none ↔
      ∀ j, start ≤ j → j < start + fuel → p j = false := by
  intro fuel
  induction fuel with
  | zero =>
    intro start
    simp only [findFirst]
    constructor
    · intro _ j h1 h2
      omega
    · intro _
      trivial
  | succ fuel ih =>
    intro start
    simp only [findFirst]
    by_cases hp : p start = true
    · rw [if_pos hp]
      constructor
      · intro h
        exact Option.noConfusion h
      · intro h
        have hf := h start (le_refl _) (by omega)
        rw [hp] at hf
        exact Bool.noConfusion hf
    · rw [if_neg hp]
      have hpf : p start = false := by
        revert hp
        cases p start <;> simp
      rw [ih (start + 1)]
      constructor
      · intro h j hj1 hj2
        rcases Nat.eq_or_lt_of_le hj1 with heq | hlt
        · rw [← heq]
          exact hpf
        · exact h j (by omega) (by omega)
      · intro h j hj1 hj2
        exact h j (by omega) (by omega)

theorem crossBool_iff (b : ℕ → ℤ) (i : ℕ) :
    ((decide (b (i - 1) < 0) && decide (0 ≤ b i)) = true) ↔ (b (i - 1) < 0 ∧ 0 ≤ b i) := by
  simp

theorem firstCrossing_isLeast (b : ℕ → ℤ) (hne : (crossSet b).Nonempty) :
    ∃ i, firstCrossing b = some i ∧ IsLeast (crossSet b) i := by
  obtain ⟨i0, hi1, hi2, hi3, hi4⟩ := hne
  cases hfc : firstCrossing b with
  | none =>
    exfalso
    unfold firstCrossing at hfc
    rw [findFirst_eq_none] at hfc
    have hf := hfc i0 hi1 (by omega)
    rw [(crossBool_iff b i0).mpr ⟨hi3, hi4⟩] at hf
    exact Bool.noConfusion hf
  | some i =>
    refine ⟨i, rfl, ?_, ?_⟩
    · unfold firstCrossing at hfc
      rw [findFirst_eq_some] at hfc
      obtain ⟨h1, h2, h3, -⟩ := hfc
      obtain ⟨hc1, hc2⟩ := (crossBool_iff b i).mp h3
      exact ⟨h1, by omega, hc1, hc2⟩
    · intro j hj
      obtain ⟨hj1, hj2, hj3, hj4⟩ := hj
      unfold firstCrossing at hfc
      rw [findFirst_eq_some] at hfc
      obtain ⟨-, -, -, h4⟩ := hfc
      by_contra hlt
      have hf := h4 j hj1 (by omega)
      rw [(crossBool_iff b j).mpr ⟨hj3, hj4⟩] at hf
      exact Bool.noConfusion hf

theorem firstCrossing_none_of_empty (b : ℕ → ℤ) (h : crossSet b = ∅) :
    firstCrossing b = none := by
  cases hfc : firstCrossing b with
  | none => rfl
  | some i =>
    exfalso
    unfold firstCrossing at hfc
    rw [findFirst_eq_some] at hfc
    obtain ⟨h1, h2, h3, -⟩ := hfc
    obtain ⟨hc1, hc2⟩ := (crossBool_iff b i).mp h3
    have : i ∈ crossSet b := ⟨h1, by omega, hc1, hc2⟩
    rw [h] at this
    exact Set.not_mem_empty i this

theorem triggerUpdate_some (b : ℕ → ℤ) (old i : ℕ) (h : firstCrossing b = some i) :
    triggerUpdate b true old = i := by
  unfold triggerUpdate
  rw [if_pos rfl, h]

theorem triggerUpdate_none (b : ℕ → ℤ) (old : ℕ) (h : firstCrossing b = none) :
    triggerUpdate b true old = old := by
  unfold triggerUpdate
  rw [if_pos rfl, h]

theorem triggerUpdate_nolock (b : ℕ → ℤ) (old : ℕ) : triggerUpdate b false old = 0 := by
  unfold triggerUpdate
  rw [if_neg (by simp)]

/-- C3 amended: the trigger scan runs only in analysis cycles whose RMS
exceeds the squelch threshold.  In such a cycle, with lock enabled the
offset becomes the smallest index i in 1..4094 with sample[i-1] < 0 and
sample[i] >= 0 (unchanged when no such index exists), and with lock
disabled the offset becomes 0.  In a squelched cycle the offset keeps its
previous value regardless of the lock flag and the buffer contents. -/
theorem trigger_offset_spec (s : AnalysisState) :
    (s.squelch_threshold < rmsOf s.rec_buffer →
      ((s.trigger_lock_on = true →
        (((crossSet s.rec_buffer).Nonempty →
            IsLeast (crossSet s.rec_buffer) ((analysisCycle s).trigger_offset)) ∧
          (crossSet s.rec_buffer = ∅ →
            (analysisCycle s).trigger_offset = s.trigger_offset))) ∧
        (s.trigger_lock_on = false → (analysisCycle s).trigger_offset = 0))) ∧
    (rmsOf s.rec_buffer ≤ s.squelch_threshold →
      (analysisCycle s).trigger_offset = s.trigger_offset) := by
  constructor
  · intro hs
    have hcyc : (analysisCycle s).trigger_offset =
        triggerUpdate s.rec_buffer s.trigger_lock_on s.trigger_offset := by
      rw [analysisCycle_hot s hs]
    refine ⟨?_, ?_⟩
    · intro hlock
      refine ⟨?_, ?_⟩
      · intro hne
        obtain ⟨i, hfc, hleast⟩ := firstCrossing_isLeast s.rec_buffer hne
        rw [hcyc, hlock, triggerUpdate_some _ _ _ hfc]
        exact hleast
      · intro hempty
        rw [hcyc, hlock,
          triggerUpdate_none _ _ (firstCrossing_none_of_empty _ hempty)]
    · intro hlock
      rw [hcyc, hlock, triggerUpdate_nolock]
  · intro hs
    rw [analysisCycle_squelched s hs]

/-- C3 counterexample: in a squelched cycle (silent buffer, RMS 0 at or
below the 500 threshold) with trigger lock disabled, the trigger offset is
not 0: it keeps its previous value 5, because the whole trigger scan sits
inside the squelch branch. -/
theorem trigger_lock_off_counterexample :
    silentState.trigger_lock_on = false ∧
      (analysisCycle silentState).trigger_offset = 5 := by
  refine ⟨rfl, ?_⟩
  rw [analysisCycle_squelched _ silentState_squelched]
  rfl

/-- Witness for the amended C3 at the concrete loud state, whose single
rising zero crossing is at index 1. -/
theorem trigger_offset_spec_witness :
    loudState.squelch_threshold < rmsOf loudState.rec_buffer ∧
      loudState.trigger_lock_on = true ∧
      (crossSet loudState.rec_buffer).Nonempty ∧
      IsLeast (crossSet loudState.rec_buffer) ((analysisCycle loudState).trigger_offset) := by
  have hne : (crossSet loudState.rec_buffer).Nonempty := by
    refine ⟨1, le_refl 1, by norm_num, ?_, ?_⟩
    · show (if (0 : ℕ) = 0 then (-1000 : ℤ) else 1000) < 0
      norm_num
    · show (0 : ℤ) ≤ (if (1 : ℕ) = 0 then (-1000 : ℤ) else 1000)
      norm_num
  exact ⟨loudState_hot, rfl, hne,
    (((trigger_offset_spec loudState).1 loudState_hot).1 rfl).1 hne⟩

-- Hot-path peak search (claim C10).

theorem binDb_gt_floor (b : ℕ → ℤ) (i : ℕ) : -1000 < binDb b i := by
  unfold binDb
  have hm : 0 ≤ binMag b i := Real.sqrt_nonneg _
  have h9 : Real.logb 10 (1e-9 : ℝ) = ((-9 : ℤ) : ℝ) := by
    rw [show (1e-9 : ℝ) = (10 : ℝ) ^ (((-9 : ℤ) : ℝ)) by
      rw [Real.rpow_intCast]
      norm_num]
    exact Real.logb_rpow (by norm_num) (by norm_num)
  have hmono : Real.logb 10 (1e-9 : ℝ) ≤ Real.logb 10 (binMag b i + 1e-9) :=
    Real.logb_le_logb_of_le (by norm_num) (by norm_num) (by linarith)
  rw [h9] at hmono
  push_cast at hmono
  linarith

theorem peakFold_index_ge_one (db : ℕ → ℝ) :
    ∀ (l : List ℕ) (acc : ℝ × ℕ), 1 ≤ acc.2 → (∀ i ∈ l, 1 ≤ i) →
      1 ≤ (l.foldl (fun acc i => if acc.1 < db i then (db i, i) else acc) acc).2 := by
  intro l
  induction l with
  | nil => exact fun acc h _ => h
  | cons a t ih =>
    intro acc h hl
    simp only [List.foldl_cons]
    apply ih
    · dsimp only
      split_ifs
      · exact hl a (List.mem_cons_self a t)
      · exact h
    · intro i hi
      exact hl i (List.mem_cons_of_mem _ hi)

theorem peakScan_index_ge_one (db : ℕ → ℝ) (hdb : -1000 < db 1) :
    1 ≤ (peakScan db).2 := by
  unfold peakScan
  rw [show (2048 - 1 : ℕ) = 2046 + 1 from rfl, List.range_succ_eq_map]
  simp only [List.map_cons, List.foldl_cons, List.map_map, zero_add]
  dsimp only
  rw [if_pos hdb]
  apply peakFold_index_ge_one
  · exact le_refl 1
  · intro i hi
    simp only [List.mem_map, List.mem_range, Function.comp_apply] at hi
    obtain ⟨a, -, rfl⟩ := hi
    omega

/-- C10: every dB bin value of the spectral frame exceeds the -1000
initialization of the peak search (it is at least 20 * (-9) = -180), so the
search over bins 1..2047 always returns peak_index >= 1; hence
target_freq > 0, the else-2048 fallback of the auto-timebase computation
and the substitute-1.0 guard of the logarithmic frequency-to-position map
are never taken, and in every analysis cycle whose RMS exceeds the squelch
threshold the resulting marker frequency is positive. -/
theorem hot_path_fallbacks_unreachable (s : AnalysisState) :
    (∀ i, -1000 < binDb s.rec_buffer i) ∧
    1 ≤ (peakScan (binDb s.rec_buffer)).2 ∧
    0 < targetFreq ((peakScan (binDb s.rec_buffer)).2) ∧
    targetSamplesRaw (targetFreq ((peakScan (binDb s.rec_buffer)).2)) =
      ctrunc (4 * (44100 / targetFreq ((peakScan (binDb s.rec_buffer)).2))) ∧
    logArg (targetFreq ((peakScan (binDb s.rec_buffer)).2)) =
      targetFreq ((peakScan (binDb s.rec_buffer)).2) ∧
    (s.squelch_threshold < rmsOf s.rec_buffer → 0 < (analysisCycle s).marker_freq) := by
  have hdb : ∀ i, -1000 < binDb s.rec_buffer i := binDb_gt_floor s.rec_buffer
  have hidx : 1 ≤ (peakScan (binDb s.rec_buffer)).2 :=
    peakScan_index_ge_one _ (hdb 1)
  have htf : 0 < targetFreq ((peakScan (binDb s.rec_buffer)).2) := by
    unfold targetFreq
    have h1 : (0 : ℝ) < ((peakScan (binDb s.rec_buffer)).2 : ℝ) := by
      exact_mod_cast lt_of_lt_of_le Nat.zero_lt_one hidx
    positivity
  refine ⟨hdb, hidx, htf, ?_, ?_, ?_⟩
  · unfold targetSamplesRaw
    rw [if_pos htf]
  · unfold logArg
    rw [if_pos htf]
  · intro hs
    rw [analysisCycle_hot s hs]
    exact htf

/-- Witness for C10 at the concrete loud state, whose RMS 1000 exceeds the
500 squelch threshold. -/
theorem hot_path_fallbacks_unreachable_witness :
    loudState.squelch_threshold < rmsOf loudState.rec_buffer ∧
      0 < (analysisCycle loudState).marker_freq :=
  ⟨loudState_hot,
    (hot_path_fallbacks_unreachable loudState).2.2.2.2.2 loudState_hot⟩
